import Mathlib

/-!
# Verification of the voice-agent audio pipeline

Shallow embedding of the repository's core pipeline:

* `src/audio_processor.rs` — silence trimming, normalization, overlap chunking
  (`AudioProcessor`), with `f32` samples modelled as `ℚ` and `usize` as `ℕ`;
* `src/audio.rs` — the capture accumulator (`AudioRecorder`), with the mutex
  abstracted away (all pipeline stages are sequential on the control thread);
* `src/whisper.rs` — the chunked-transcription orchestrator
  (`WhisperModel.transcribe_chunks`), with the external whisper engine as an
  abstract fallible function and Rust strings as lists of characters carrying
  their UTF-8 byte sizes;
* `src/calibration.rs` — the profile-prompt construction step of
  `run_calibration`.
-/

/-- Source: `const SAMPLE_RATE: usize = 16_000;` from `audio_processor.rs`. -/
def SAMPLE_RATE : ℕ := 16000

/-- The `AudioProcessor` configuration from `audio_processor.rs`.  The source
stores `silence_threshold_db: f32` and converts it once per `trim_silence` call
via `db_to_linear(db) = 10^(db/20)`, whose value is strictly positive but in
general irrational; we model the processor as carrying the resulting *linear*
threshold directly (field `silence_threshold`), and the theorems assume
`0 < silence_threshold`, which every value of `10^(db/20)` satisfies. -/
structure AudioProcessor where
  chunk_duration_secs : ℚ
  overlap_secs : ℚ
  silence_threshold : ℚ
  min_chunk_secs : ℚ

/-- Source: `(self.chunk_duration_secs * SAMPLE_RATE as f32) as usize`: the `as usize`
cast truncates toward zero and saturates at 0 for negative values, which for
rationals is `Rat.floor` followed by `Int.toNat`. -/
def AudioProcessor.chunkSamples (c : AudioProcessor) : ℕ :=
  (c.chunk_duration_secs * (SAMPLE_RATE : ℚ)).floor.toNat

/-- Source: `(self.overlap_secs * SAMPLE_RATE as f32) as usize`. -/
def AudioProcessor.overlapSamples (c : AudioProcessor) : ℕ :=
  (c.overlap_secs * (SAMPLE_RATE : ℚ)).floor.toNat

/-- Source: `(self.min_chunk_secs * SAMPLE_RATE as f32) as usize`. -/
def AudioProcessor.minSamples (c : AudioProcessor) : ℕ :=
  (c.min_chunk_secs * (SAMPLE_RATE : ℚ)).floor.toNat

/-- Source: `samples.iter().map(|s| s * s).sum()` from `calculate_rms`. -/
def sumSq (samples : List ℚ) : ℚ :=
  (samples.map (fun s => s * s)).foldl (· + ·) 0

/-- The source computes `calculate_rms(samples) = sqrt(sum_sq / len)` (with an
explicit `0.0` for the empty slice) and `trim_silence` compares
`rms > threshold`.  The square root does not stay inside `ℚ`; since the
source's threshold `10^(db/20)` is strictly positive, `rms > threshold` is
equivalent to `threshold^2 * len < sum_sq`, which is the decidable comparison
used here.  The two versions also agree on the empty slice, where the source's
`rms = 0` is not above a positive threshold and `threshold^2 * 0 < 0` is
false. -/
def rmsExceeds (threshold : ℚ) (samples : List ℚ) : Bool :=
  decide (threshold ^ 2 * (samples.length : ℚ) < sumSq samples)

/-- The frame start indices visited by `for i in (0..len).step_by(frame_size)`:
`0, frame_size, 2*frame_size, …` while `< len`. -/
def stepPositions (len step : ℕ) : List ℕ :=
  (List.range ((len + step - 1) / step)).map (fun i => i * step)

/-- Source: `AudioProcessor::trim_silence` from `audio_processor.rs` (lines 53–88):
scan 10 ms frames forward for the first frame whose RMS exceeds the linear
threshold (default start 0), scan backward for the last such frame (default
end `len`, on a hit `min(i + frame_size, len)`), return `audio[start..end]`
(empty when `start >= end`). -/
def AudioProcessor.trim_silence (c : AudioProcessor) (audio : List ℚ) : List ℚ :=
  if audio = [] then []
  else
    let threshold := c.silence_threshold
    let frame_size := SAMPLE_RATE / 100
    let positions := stepPositions audio.length frame_size
    let start :=
      (positions.find? (fun i => rmsExceeds threshold ((audio.drop i).take frame_size))).getD 0
    let stop :=
      ((positions.reverse.find?
          (fun i => rmsExceeds threshold ((audio.drop i).take frame_size))).map
        (fun i => min (i + frame_size) audio.length)).getD audio.length
    if stop ≤ start then [] else (audio.drop start).take (stop - start)

/-- Source: `audio.iter().map(|s| s.abs()).fold(0.0_f32, f32::max)` from `normalize`. -/
def maxAbs (audio : List ℚ) : ℚ :=
  audio.foldl (fun m s => max m |s|) 0

/-- Source: `AudioProcessor::normalize` from `audio_processor.rs` (lines 91–107):
`max_val` is the fold of `f32::max` over absolute values starting at `0.0`;
below the `1e-6` floor the signal is returned unchanged, otherwise every
sample is scaled by `0.95 / max_val`. -/
def AudioProcessor.normalize (_c : AudioProcessor) (audio : List ℚ) : List ℚ :=
  if audio = [] then []
  else
    let max_val := maxAbs audio
    if max_val < 1 / 1000000 then audio
    else
      let scale := (95 / 100) / max_val
      audio.map (fun s => s * scale)

/-- The `while pos < audio.len()` loop of `AudioProcessor::chunk_with_overlap`
(lines 128–142), written with explicit fuel; `none` means the fuel ran out
before the loop exited (with `step = 0` the source loop never terminates).
`audio[pos..min(pos+chunk_samples, len)]` is `(audio.drop pos).take chunkS`.
The tail check `audio.len() - pos < min_samples` uses truncated `ℕ`
subtraction where the source's `usize` subtraction underflows for
`pos > audio.len()` (see `chunkLoopChk`); under release-mode wrap-around
semantics the wrapped value compares `≥ min_samples`, the loop condition then
exits, and the emitted chunk list is the same as under truncation. -/
def chunkLoop (audio : List ℚ) (chunkS minS step : ℕ) :
    ℕ → ℕ → List (List ℚ) → Option (List (List ℚ))
  | 0, _, _ => none
  | fuel + 1, pos, acc =>
    if pos < audio.length then
      let chunk := (audio.drop pos).take chunkS
      let acc' := if minS ≤ chunk.length then acc ++ [chunk] else acc
      let pos' := pos + step
      if audio.length - pos' < minS ∧ acc' ≠ [] then some acc'
      else chunkLoop audio chunkS minS step fuel pos' acc'
    else some acc

/-- Source: `AudioProcessor::chunk_with_overlap` (lines 110–145): a signal no longer
than `chunk_samples` is a single chunk when at least `min_samples` long (else
no chunks); otherwise the sliding-window loop runs with
`step = chunk_samples - overlap_samples`.  Fuel `audio.length + 1` is enough
whenever `step ≥ 1` (proved below). -/
def AudioProcessor.chunk_with_overlap (c : AudioProcessor) (audio : List ℚ) :
    List (List ℚ) :=
  let chunkS := c.chunkSamples
  let minS := c.minSamples
  if audio.length ≤ chunkS then
    if minS ≤ audio.length then [audio] else []
  else
    let step := chunkS - c.overlapSamples
    (chunkLoop audio chunkS minS step (audio.length + 1) 0 []).getD []

/-- Source: `AudioProcessor::process` (lines 148–161): trim, stop with no chunks if
the trimmed signal is empty, else normalize and chunk. -/
def AudioProcessor.process (c : AudioProcessor) (audio : List ℚ) :
    List (List ℚ) :=
  let trimmed := c.trim_silence audio
  if trimmed = [] then []
  else c.chunk_with_overlap (c.normalize trimmed)

/-- Instrumented copy of `chunkLoop` that additionally reports whether the
tail check `audio.len() - pos` was ever evaluated with `pos > audio.len()`,
i.e. whether the source's `usize` subtraction underflows (a panic in debug
builds, wrap-around in release builds). -/
def chunkLoopChk (audio : List ℚ) (chunkS minS step : ℕ) :
    ℕ → ℕ → List (List ℚ) → Bool → Option (List (List ℚ) × Bool)
  | 0, _, _, _ => none
  | fuel + 1, pos, acc, flag =>
    if pos < audio.length then
      let chunk := (audio.drop pos).take chunkS
      let acc' := if minS ≤ chunk.length then acc ++ [chunk] else acc
      let pos' := pos + step
      let flag' := flag || decide (audio.length < pos')
      if audio.length - pos' < minS ∧ acc' ≠ [] then some (acc', flag')
      else chunkLoopChk audio chunkS minS step fuel pos' acc' flag'
    else some (acc, flag)

/-- Variant of `chunk_with_overlap` with the underflow flag of `chunkLoopChk`. -/
def AudioProcessor.chunk_with_overlapChk (c : AudioProcessor) (audio : List ℚ) :
    List (List ℚ) × Bool :=
  let chunkS := c.chunkSamples
  let minS := c.minSamples
  if audio.length ≤ chunkS then
    if minS ≤ audio.length then ([audio], false) else ([], false)
  else
    let step := chunkS - c.overlapSamples
    (chunkLoopChk audio chunkS minS step (audio.length + 1) 0 [] false).getD ([], false)

/-- Variant of `process` with the underflow flag of `chunkLoopChk`. -/
def AudioProcessor.processChk (c : AudioProcessor) (audio : List ℚ) :
    List (List ℚ) × Bool :=
  let trimmed := c.trim_silence audio
  if trimmed = [] then ([], false)
  else c.chunk_with_overlapChk (c.normalize trimmed)

/-! ## `src/audio.rs` — the capture accumulator

The `Arc<Mutex<Vec<f32>>>` buffer is modelled as the list it guards: the spec's
concurrency model (§5) has a single producer and a single control thread, and
the claims about `stop` are about the sequential state transition.  The
`Err`-arm of `buffer.lock()` (a poisoned mutex) is unreachable in the
sequential model. -/

/-- The `AudioRecorder` state: the sample accumulator behind the mutex. -/
structure AudioRecorder where
  buffer : List ℚ

/-- Source: `AudioRecorder::new`: an empty accumulator. -/
def AudioRecorder.new : AudioRecorder :=
  ⟨[]⟩

/-- The `SampleFormat::F32` capture callback (`audio.rs` lines 33–42):
`b.extend_from_slice(data)`. -/
def AudioRecorder.appendF32 (r : AudioRecorder) (data : List ℚ) : AudioRecorder :=
  ⟨r.buffer ++ data⟩

/-- Source: `*v as f32 / i16::MAX as f32` (`audio.rs` line 48): the fixed-point
conversion applied to each `i16` sample; `i16::MAX = 32767`. -/
def i16ToF32 (v : ℤ) : ℚ :=
  (v : ℚ) / 32767

/-- The `SampleFormat::I16` capture callback (`audio.rs` lines 43–54):
each integer sample is pushed as `v as f32 / i16::MAX as f32`. -/
def AudioRecorder.appendI16 (r : AudioRecorder) (data : List ℤ) : AudioRecorder :=
  ⟨r.buffer ++ data.map i16ToF32⟩

/-- Source: `AudioRecorder::stop` (`audio.rs` lines 62–68): `b.drain(..).collect()`
returns the accumulated samples and leaves the buffer empty. -/
def AudioRecorder.stop (r : AudioRecorder) : List ℚ × AudioRecorder :=
  (r.buffer, ⟨[]⟩)

/-! ## `src/whisper.rs` — the chunked-transcription orchestrator

Rust `String`s are modelled as `List Char`; `String::len` is the UTF-8 byte
count `byteLen`, and the byte-offset slice `&s[i..]` is `byteDrop`, which is
`none` exactly when the offset is not a character boundary (where the Rust
slice panics).  The external whisper machinery of one chunk — `create_state`,
`FullParams` (greedy single-best, language "ru", progress output off),
`state.full`, and the segment-text collection loop — is one abstract fallible
call `Engine ε`: it receives the initial prompt that was set (or `none` when
`set_initial_prompt` was not called) and the chunk samples, and returns the
concatenated segment text or the engine error `ε`. -/

/-- A Rust `String`, as its character sequence. -/
abbrev Str := List Char

/-- Source: `String::len`: the UTF-8 byte length. -/
def byteLen (s : Str) : ℕ :=
  (s.map Char.utf8Size).sum

/-- The byte-offset slice `&s[i..]`: `none` when `i` is not a character
boundary (the Rust slice panics there), `some` of the suffix otherwise. -/
def byteDrop (s : Str) (i : ℕ) : Option Str :=
  match s, i with
  | s, 0 => some s
  | [], _ + 1 => none
  | c :: rest, i + 1 =>
    if c.utf8Size ≤ i + 1 then byteDrop rest (i + 1 - c.utf8Size) else none

/-- The external transcription engine: initial prompt (if one was set) and
chunk samples to concatenated segment text, or an engine error. -/
abbrev Engine (ε : Type) := Option Str → List ℚ → Except ε Str

/-- Source: `WhisperModel::transcribe` (`whisper.rs` lines 33–60): the single-chunk
path sets the initial prompt exactly when `calibration_prompt` is `Some` and
runs the engine once. -/
def WhisperModel.transcribe {ε : Type} (eng : Engine ε) (cal : Option Str)
    (audio : List ℚ) : Except ε Str :=
  eng cal audio

/-- The prompt construction of `transcribe_chunks` (`whisper.rs` lines 86–97):
`match (&self.calibration_prompt, full_text.is_empty())` with
`ctx_start = full_text.len().saturating_sub(100)` and the byte slice
`&full_text[ctx_start..]`; `none` when that slice panics off a character
boundary.  `format!("{} {}", cal, tail)` is `cal ++ ' ' :: tail`. -/
def buildPrompt (cal : Option Str) (full_text : Str) : Option Str :=
  match cal, full_text.isEmpty with
  | some c, true => some c
  | some c, false =>
    (byteDrop full_text (byteLen full_text - 100)).map (fun tail => c ++ ' ' :: tail)
  | none, false => byteDrop full_text (byteLen full_text - 100)
  | none, true => some []

/-- The outcome of the multi-chunk loop of `transcribe_chunks`, together with
the list of engine invocations it made (initial prompt passed, text
returned).  The source does not materialize that list; it is the observation
needed to state the prompt claims.  `sliceFault` marks the run panicking on a
byte slice off a character boundary. -/
inductive RunTrace (ε : Type) where
  | sliceFault (calls : List (Option Str × Str))
  | failed (calls : List (Option Str × Str)) (e : ε)
  | finished (calls : List (Option Str × Str)) (full_text : Str)

/-- The engine invocations a trace records. -/
def RunTrace.calls {ε : Type} : RunTrace ε → List (Option Str × Str)
  | .sliceFault calls => calls
  | .failed calls _ => calls
  | .finished calls _ => calls

/-- The `for chunk in chunks` loop of `transcribe_chunks` (`whisper.rs` lines
76–112): build the prompt from the calibration prompt and the accumulated
`full_text`, set it on the params only when non-empty, run the engine, abort
on error, append the returned text.  `full_text` and the call list are the
loop state. -/
def chunksLoop {ε : Type} (eng : Engine ε) (cal : Option Str) :
    List (List ℚ) → Str → List (Option Str × Str) → RunTrace ε
  | [], full_text, calls => .finished calls full_text
  | chunk :: rest, full_text, calls =>
    match buildPrompt cal full_text with
    | none => .sliceFault calls
    | some prompt =>
      let passed : Option Str := if prompt = [] then none else some prompt
      match eng passed chunk with
      | .error e => .failed calls e
      | .ok text => chunksLoop eng cal rest (full_text ++ text) (calls ++ [(passed, text)])

/-- Project a trace onto the value `transcribe_chunks` returns: `none` for the
byte-slice panic, the propagated engine error, or `Ok(full_text)`. -/
def RunTrace.toResult {ε : Type} : RunTrace ε → Option (Except ε Str)
  | .sliceFault _ => none
  | .failed _ e => some (.error e)
  | .finished _ full_text => some (.ok full_text)

/-- Source: `WhisperModel::transcribe_chunks` (`whisper.rs` lines 64–115): empty input
returns `Ok("")`, a single chunk takes the `transcribe` path, and two or more
chunks run the context-carrying loop.  The outer `Option` marks the byte-slice
panic (`none`). -/
def WhisperModel.transcribe_chunks {ε : Type} (eng : Engine ε) (cal : Option Str) :
    List (List ℚ) → Option (Except ε Str)
  | [] => some (.ok [])
  | [chunk] => some (WhisperModel.transcribe eng cal chunk)
  | chunks => (chunksLoop eng cal chunks [] []).toResult

/-! ## `src/calibration.rs` — the profile-prompt construction

`run_calibration`'s interactive loop accumulates `collected_text`; the claims
are about the final prompt construction (lines 168–178), modelled as a pure
function of the collected text. -/

/-- Source: `str::trim`: strip leading and trailing whitespace. -/
def trimWs (s : Str) : Str :=
  ((s.dropWhile Char.isWhitespace).reverse.dropWhile Char.isWhitespace).reverse

/-- The profile-prompt construction of `run_calibration` (`calibration.rs`
lines 168–173): text longer than 300 *bytes* keeps its trailing 300 bytes
unmodified (`collected_text[collected_text.len() - 300..]`, a byte slice that
panics off a character boundary, hence the `Option`); shorter text is
`trim()`ed. -/
def buildProfilePrompt (collected_text : Str) : Option Str :=
  if 300 < byteLen collected_text then
    byteDrop collected_text (byteLen collected_text - 300)
  else some (trimWs collected_text)

/-- The claim's own reading of the truncations: the trailing `n` *characters*
of a string (stated from the spec's words, for comparison with the byte-based
source functions). -/
def specTrailingChars (n : ℕ) (s : Str) : Str :=
  s.drop (s.length - n)

/-! ## Proof-side helpers and concrete inputs -/

/-- The window start positions the `chunk_with_overlap` loop emits from state
`pos` with the given fuel, assuming every visited position is pushed (the
invariant established in `chunkLoop_closed`). -/
def emittedPositions (len minS step : ℕ) : ℕ → ℕ → List ℕ
  | 0, _ => []
  | fuel + 1, pos =>
    if pos < len then
      pos :: (if len - (pos + step) < minS then [] else emittedPositions len minS step fuel (pos + step))
    else []

/-- The ramp signal `0, 1, …, n-1` used as a concrete chunking input. -/
def rampQ (n : ℕ) : List ℚ :=
  List.map (fun k : ℕ => (k : ℚ)) (List.range n)

/-- A concrete engine whose every invocation transcribes to 51 Cyrillic
characters (2 UTF-8 bytes each), exposing the byte/character distinction in
the prompt construction. -/
def engCyr : Engine Unit :=
  fun _ _ => .ok (List.replicate 51 'б')

/-- A concrete engine that fails (with error 7) exactly on the chunk `[2]`
and otherwise transcribes to `"x"`. -/
def engFail : Engine ℕ :=
  fun _ c => if c = [(2 : ℚ)] then .error 7 else .ok ['x']

/-- Concrete configuration for the all-silence inputs: chunk 1/80 s
(200 samples), overlap 1/16000 s (1 sample), linear threshold 1/10
(≈ −20 dB), minimum 1/16000 s (1 sample); all durations positive and the
overlap shorter than the chunk, as the spec precondition requires. -/
def cfgZ : AudioProcessor :=
  ⟨1 / 80, 1 / 16000, 1 / 10, 1 / 16000⟩

/-- Like `cfgZ` but with minimum chunk duration 1/160 s (100 samples). -/
def cfgMin : AudioProcessor :=
  ⟨1 / 80, 1 / 16000, 1 / 10, 1 / 160⟩

/-- Concrete configuration exhibiting the tail-check underflow: chunk
10/16000 s (10 samples), overlap 2/16000 s (2 samples), linear threshold 1/2,
minimum 1/16000 s (1 sample). -/
def cfgU : AudioProcessor :=
  ⟨10 / 16000, 2 / 16000, 1 / 2, 1 / 16000⟩

/-- Concrete configuration with overlap larger than the minimum chunk length
(10-sample chunks, 8-sample overlap, 1-sample minimum). -/
def cfgShort : AudioProcessor :=
  ⟨10 / 16000, 8 / 16000, 1 / 2, 1 / 16000⟩

/-- Concrete configuration with overlap at most the minimum chunk length
(10-sample chunks, 3-sample overlap, 4-sample minimum). -/
def cfgOv : AudioProcessor :=
  ⟨10 / 16000, 3 / 16000, 1 / 2, 4 / 16000⟩

/-! ## Theorems -/

/-- Claim C9 — `stop()` returns the entire sequence accumulated since the last
drain and leaves the accumulator empty; on a never-appended recorder it
returns the empty sequence, and a second `stop()` with no intervening append
returns the empty sequence. -/
theorem audioRecorder_stop_drains (r : AudioRecorder) :
    r.stop.1 = r.buffer ∧ r.stop.2.buffer = [] ∧
    AudioRecorder.new.stop.1 = [] ∧ r.stop.2.stop.1 = [] :=
  ⟨rfl, rfl, rfl, rfl⟩

/-- Claim C10 (counterexample) — the sample `i16::MIN = -32768` delivered by the
fixed-point capture callback is appended as `-32768 / 32767`, which lies
strictly below `-1.0`: not every converted sample lies in `[-1.0, 1.0]`. -/
theorem i16_sample_below_neg_one :
    ¬ ∀ s ∈ (AudioRecorder.new.appendI16 [-32768]).buffer, -1 ≤ s ∧ s ≤ 1 := by
  intro h
  have hmem : i16ToF32 (-32768) ∈ (AudioRecorder.new.appendI16 [-32768]).buffer := by
    simp [AudioRecorder.appendI16, AudioRecorder.new]
  have hle := (h _ hmem).1
  rw [i16ToF32] at hle
  norm_num at hle

/-- Claim C10 (amended) — every appended fixed-point sample equals the integer
value divided by `i16::MAX = 32767`; over the full `i16` range the converted
values lie in `[-32768/32767, 1]`, so every value except `-32768` lies in the
nominal `[-1.0, 1.0]`, while `-32768` itself maps to `-32768/32767 < -1`. -/
theorem i16_conversion_range (v : ℤ) (h1 : -32768 ≤ v) (h2 : v ≤ 32767) :
    i16ToF32 v = (v : ℚ) / 32767 ∧
    -(32768 / 32767 : ℚ) ≤ i16ToF32 v ∧ i16ToF32 v ≤ 1 ∧
    (-32767 ≤ v → -1 ≤ i16ToF32 v) := by
  have hv1 : ((-32768 : ℤ) : ℚ) ≤ (v : ℚ) := by exact_mod_cast h1
  have hv2 : (v : ℚ) ≤ 32767 := by exact_mod_cast h2
  refine ⟨rfl, ?_, ?_, ?_⟩
  · rw [i16ToF32, neg_div']
    exact div_le_div_of_nonneg_right (by push_cast at hv1 ⊢; linarith) (by norm_num)
  · rw [i16ToF32, div_le_one (by norm_num : (0:ℚ) < 32767)]
    exact hv2
  · intro h3
    have hv3 : ((-32767 : ℤ) : ℚ) ≤ (v : ℚ) := by exact_mod_cast h3
    rw [i16ToF32]
    rw [show (-1 : ℚ) = -32767 / 32767 by norm_num]
    exact div_le_div_of_nonneg_right (by push_cast at hv3 ⊢; linarith) (by norm_num)

/-- Claim C10 (witness) — the amended range facts evaluated at `v = -32768`. -/
theorem i16_conversion_range_witness :
    i16ToF32 (-32768) = ((-32768 : ℤ) : ℚ) / 32767 ∧
    -(32768 / 32767 : ℚ) ≤ i16ToF32 (-32768) ∧ i16ToF32 (-32768) ≤ 1 ∧
    (-32767 ≤ (-32768 : ℤ) → -1 ≤ i16ToF32 (-32768)) :=
  i16_conversion_range (-32768) (by decide) (by decide)

/-- Claim C8 — in the chunking loop, after advancing the window by `step`, if
the remaining tail `audio.len() - pos` is shorter than `min_samples` and at
least one chunk has been emitted (including the one pushed this iteration),
the loop stops at once and returns exactly the chunks emitted so far — the
tail starting at the advanced position is never emitted. -/
theorem chunkLoop_tail_stop (audio : List ℚ) (chunkS minS step fuel pos : ℕ)
    (acc : List (List ℚ)) (hpos : pos < audio.length)
    (htail : audio.length - (pos + step) < minS)
    (hne : (if minS ≤ ((audio.drop pos).take chunkS).length then
        acc ++ [(audio.drop pos).take chunkS] else acc) ≠ []) :
    chunkLoop audio chunkS minS step (fuel + 1) pos acc =
      some (if minS ≤ ((audio.drop pos).take chunkS).length then
        acc ++ [(audio.drop pos).take chunkS] else acc) := by
  rw [chunkLoop]
  simp only [if_pos hpos]
  rw [if_pos ⟨htail, hne⟩]

/-- Claim C8 (witness) — the early stop evaluated on the 5-sample ramp with
3-sample chunks, 3-sample step and 3-sample minimum: the loop stops after the
first chunk and the 2-sample tail is not emitted. -/
theorem chunkLoop_tail_stop_witness :
    chunkLoop (rampQ 5) 3 3 3 1 0 [] = some [[0, 1, 2]] :=
  (chunkLoop_tail_stop (rampQ 5) 3 3 3 0 0 [] (by decide) (by decide)
    (by decide)).trans (by decide)

/-- Sample-count conversion: when the configured seconds times the sample
rate is exactly the natural number `n`, the `as usize` cast yields `n`. -/
theorem floorSamples (q : ℚ) (n : ℕ) (h : q * (SAMPLE_RATE : ℚ) = n) :
    (q * (SAMPLE_RATE : ℚ)).floor.toNat = n := by
  rw [h, Rat.floor_def']
  simp

theorem cfgU_chunkS : cfgU.chunkSamples = 10 := by
  rw [AudioProcessor.chunkSamples]
  exact floorSamples _ _ (by norm_num [SAMPLE_RATE, cfgU])

theorem cfgU_overlapS : cfgU.overlapSamples = 2 := by
  rw [AudioProcessor.overlapSamples]
  exact floorSamples _ _ (by norm_num [SAMPLE_RATE, cfgU])

theorem cfgU_minS : cfgU.minSamples = 1 := by
  rw [AudioProcessor.minSamples]
  exact floorSamples _ _ (by norm_num [SAMPLE_RATE, cfgU])

theorem cfgU_trim : cfgU.trim_silence (List.replicate 11 1) = List.replicate 11 1 := by
  rw [AudioProcessor.trim_silence]
  norm_num [stepPositions, SAMPLE_RATE, List.find?, rmsExceeds, sumSq, List.replicate, cfgU]

theorem cfgU_normalize :
    cfgU.normalize (List.replicate 11 1) = List.replicate 11 (19 / 20) := by
  rw [AudioProcessor.normalize]
  norm_num [maxAbs, List.replicate, cfgU]
  exact fun h => absurd h (by simp)

/-- Claim C2 (code bug, failing input) — with the spec-conform configuration
`cfgU` (all durations positive, overlap < chunk duration: 10-sample chunks,
2-sample overlap, 1-sample minimum) and an 11-sample signal of amplitude 1,
`process` reaches the tail-length check with `pos = 16 > 11 = audio.len()`:
the `usize` subtraction `audio.len() - pos` underflows (debug builds panic;
release builds wrap, and the loop then exits with the same chunks). -/
theorem process_tail_check_underflows :
    (cfgU.processChk (List.replicate 11 1)).2 = true := by
  rw [AudioProcessor.processChk]
  simp only [cfgU_trim, cfgU_normalize]
  rw [if_neg (by simp)]
  rw [AudioProcessor.chunk_with_overlapChk]
  simp only [cfgU_chunkS, cfgU_overlapS, cfgU_minS, List.length_replicate]
  decide

theorem cfgZ_chunkS : cfgZ.chunkSamples = 200 := by
  rw [AudioProcessor.chunkSamples]
  exact floorSamples _ _ (by norm_num [SAMPLE_RATE, cfgZ])

theorem cfgZ_minS : cfgZ.minSamples = 1 := by
  rw [AudioProcessor.minSamples]
  exact floorSamples _ _ (by norm_num [SAMPLE_RATE, cfgZ])

theorem cfgMin_chunkS : cfgMin.chunkSamples = 200 := by
  rw [AudioProcessor.chunkSamples]
  exact floorSamples _ _ (by norm_num [SAMPLE_RATE, cfgMin])

theorem cfgMin_minS : cfgMin.minSamples = 100 := by
  rw [AudioProcessor.minSamples]
  exact floorSamples _ _ (by norm_num [SAMPLE_RATE, cfgMin])

theorem foldl_add_replicate_zero (n : ℕ) (a : ℚ) :
    List.foldl (· + ·) a (List.replicate n 0) = a := by
  induction n generalizing a with
  | zero => rfl
  | succ k ih => rw [List.replicate_succ, List.foldl_cons, add_zero]; exact ih a

theorem sumSq_replicate_zero (n : ℕ) : sumSq (List.replicate n (0 : ℚ)) = 0 := by
  rw [sumSq, List.map_replicate, zero_mul]
  exact foldl_add_replicate_zero n 0

/-- A frame of zeros never exceeds the threshold: the comparison is
`threshold² · k < 0` and the left side is nonnegative. -/
theorem rmsExceeds_replicate_zero (t : ℚ) (k : ℕ) :
    rmsExceeds t (List.replicate k 0) = false := by
  rw [rmsExceeds, sumSq_replicate_zero, List.length_replicate]
  simp only [decide_eq_false_iff_not, not_lt]
  positivity

/-- With no frame above the threshold, both scans keep their defaults
(`start = 0`, `end = len`) and `trim_silence` returns the input unchanged. -/
theorem trim_silence_replicate_zero (c : AudioProcessor) (n : ℕ) :
    c.trim_silence (List.replicate n 0) = List.replicate n 0 := by
  rcases n with _ | k
  · simp [AudioProcessor.trim_silence]
  · have hfind : ∀ l : List ℕ,
        l.find? (fun i => rmsExceeds c.silence_threshold
          (((List.replicate (k + 1) (0 : ℚ)).drop i).take (SAMPLE_RATE / 100))) = none := by
      intro l
      refine List.find?_eq_none.mpr (fun i _ => ?_)
      simp [List.drop_replicate, List.take_replicate, rmsExceeds_replicate_zero]
    simp only [AudioProcessor.trim_silence]
    rw [if_neg (by simp)]
    rw [hfind, hfind]
    simp [List.take_replicate]

theorem maxAbs_replicate_zero (n : ℕ) : maxAbs (List.replicate n (0 : ℚ)) = 0 := by
  induction n with
  | zero => rfl
  | succ k ih =>
    rw [maxAbs, List.replicate_succ, List.foldl_cons] at *
    simpa using ih

theorem normalize_replicate_zero (c : AudioProcessor) (n : ℕ) :
    c.normalize (List.replicate n 0) = List.replicate n 0 := by
  rcases n with _ | k
  · simp [AudioProcessor.normalize]
  · simp only [AudioProcessor.normalize]
    rw [if_neg (by simp), maxAbs_replicate_zero, if_pos (by norm_num)]

/-- Claim C1 (counterexample) — the 5-sample all-zero signal under the
spec-conform configuration `cfgZ`: no frame's RMS exceeds the positive
threshold, yet `trim_silence` returns the whole signal (both scan defaults
survive, `start = 0 < 5 = end`) and `process` returns one all-zero chunk —
not an empty trim and zero chunks as claimed. -/
theorem allzero_trim_and_process_nonempty :
    cfgZ.trim_silence (List.replicate 5 0) ≠ [] ∧
    cfgZ.process (List.replicate 5 0) ≠ [] := by
  constructor
  · rw [trim_silence_replicate_zero]
    simp
  · simp only [AudioProcessor.process, trim_silence_replicate_zero,
      normalize_replicate_zero]
    rw [if_neg (by simp)]
    rw [AudioProcessor.chunk_with_overlap]
    simp only [cfgZ_chunkS, cfgZ_minS, List.length_replicate]
    norm_num

/-- Claim C1 (amended) — on an all-zero (more generally, below-threshold)
signal, `trim_silence` keeps its scan defaults and returns the *whole* input,
not the empty sequence; `process` therefore chunks the unchanged signal, and
returns zero chunks only when the signal is shorter than `min_samples` (and
no longer than `chunk_samples`). -/
theorem allzero_process_untrimmed (c : AudioProcessor) (n : ℕ)
    (_hth : 0 < c.silence_threshold) (hn : n ≠ 0) :
    c.trim_silence (List.replicate n 0) = List.replicate n 0 ∧
    c.process (List.replicate n 0) = c.chunk_with_overlap (List.replicate n 0) ∧
    (n ≤ c.chunkSamples → n < c.minSamples → c.process (List.replicate n 0) = []) := by
  have hproc : c.process (List.replicate n 0) = c.chunk_with_overlap (List.replicate n 0) := by
    simp only [AudioProcessor.process, trim_silence_replicate_zero,
      normalize_replicate_zero]
    rw [if_neg (by simp [hn])]
  refine ⟨trim_silence_replicate_zero c n, hproc, fun h1 h2 => ?_⟩
  rw [hproc, AudioProcessor.chunk_with_overlap]
  simp only [List.length_replicate]
  rw [if_pos h1, if_neg (Nat.not_le.mpr h2)]

/-- Claim C1 (witness) — the amended claim at `cfgMin` (200-sample chunks,
100-sample minimum) and 50 zero samples: below the minimum, `process`
returns zero chunks. -/
theorem allzero_process_untrimmed_witness :
    cfgMin.process (List.replicate 50 0) = [] :=
  (allzero_process_untrimmed cfgMin 50 (by norm_num [cfgMin]) (by norm_num)).2.2
    (by rw [cfgMin_chunkS]; norm_num) (by rw [cfgMin_minS]; norm_num)

theorem le_foldl_max (l : List ℚ) : ∀ a : ℚ, a ≤ l.foldl (fun m s => max m |s|) a := by
  induction l with
  | nil => intro a; exact le_refl a
  | cons x xs ih =>
    intro a
    exact le_trans (le_max_left a |x|) (ih (max a |x|))

theorem maxAbs_nonneg (l : List ℚ) : 0 ≤ maxAbs l :=
  le_foldl_max l 0

theorem foldl_max_map_mul (k : ℚ) (hk : 0 ≤ k) (l : List ℚ) :
    ∀ a : ℚ, (l.map (fun s => s * k)).foldl (fun m s => max m |s|) (a * k) =
      l.foldl (fun m s => max m |s|) a * k := by
  induction l with
  | nil => intro a; rfl
  | cons x xs ih =>
    intro a
    rw [List.map_cons, List.foldl_cons, List.foldl_cons,
      show |x * k| = |x| * k by rw [abs_mul, abs_of_nonneg hk],
      show max (a * k) (|x| * k) = max a |x| * k from (max_mul_of_nonneg _ _ hk).symm]
    exact ih (max a |x|)

theorem maxAbs_map_mul (k : ℚ) (hk : 0 ≤ k) (l : List ℚ) :
    maxAbs (l.map (fun s => s * k)) = maxAbs l * k := by
  have h := foldl_max_map_mul k hk l 0
  rw [zero_mul] at h
  rw [maxAbs, maxAbs, h]

/-- Claim C6 — on a non-empty signal whose maximum absolute value reaches the
`1e-6` floor, `normalize` scales every sample by `0.95 / max_abs` and the
output's maximum absolute value is exactly `0.95` (the rational model is
exact, hence in particular within any floating-point tolerance); below the
floor the signal is returned unchanged. -/
theorem normalize_peak (c : AudioProcessor) (audio : List ℚ) (hne : audio ≠ []) :
    (1 / 1000000 ≤ maxAbs audio →
      c.normalize audio = audio.map (fun s => s * (95 / 100 / maxAbs audio)) ∧
      maxAbs (c.normalize audio) = 95 / 100) ∧
    (maxAbs audio < 1 / 1000000 → c.normalize audio = audio) := by
  have hnorm : ¬maxAbs audio < 1 / 1000000 →
      c.normalize audio = audio.map (fun s => s * (95 / 100 / maxAbs audio)) := by
    intro h
    simp only [AudioProcessor.normalize]
    rw [if_neg hne, if_neg h]
  constructor
  · intro hfloor
    have h' : ¬maxAbs audio < 1 / 1000000 := not_lt.mpr hfloor
    have hpos : 0 < maxAbs audio := lt_of_lt_of_le (by norm_num) hfloor
    refine ⟨hnorm h', ?_⟩
    rw [hnorm h', maxAbs_map_mul _ (by positivity), mul_comm,
      div_mul_cancel₀ _ (ne_of_gt hpos)]
  · intro h
    simp only [AudioProcessor.normalize]
    rw [if_neg hne, if_pos h]

/-- Claim C6 (witness) — `normalize` on the one-sample signal `[0.5]`: the
sample is scaled and the output peak is exactly `0.95`. -/
theorem normalize_peak_witness :
    cfgZ.normalize [1 / 2] = [1 / 2 * (95 / 100 / maxAbs [1 / 2])] ∧
    maxAbs (cfgZ.normalize [1 / 2]) = 95 / 100 :=
  (normalize_peak cfgZ [1 / 2] (by simp)).1 (by
    rw [maxAbs, List.foldl_cons, List.foldl_nil,
      abs_of_nonneg (by norm_num : (0 : ℚ) ≤ 1 / 2),
      max_eq_right (by norm_num : (0 : ℚ) ≤ 1 / 2)]
    norm_num)

/-- Closed form of the chunking loop: when every visited position keeps at
least `min_samples` of signal ahead of it (the invariant the loop maintains
once a first chunk is pushed at position 0), every visited window is pushed
and the loop returns the windows at `emittedPositions`. -/
theorem chunkLoop_closed (audio : List ℚ) (chunkS minS step : ℕ)
    (hstep : 0 < step) (hmc : minS ≤ chunkS) :
    ∀ fuel pos acc, audio.length - pos < fuel →
      (pos < audio.length → minS ≤ audio.length - pos) →
      chunkLoop audio chunkS minS step fuel pos acc =
        some (acc ++ (emittedPositions audio.length minS step fuel pos).map
          (fun p => (audio.drop p).take chunkS)) := by
  intro fuel
  induction fuel with
  | zero => intro pos acc hf _; exact absurd hf (Nat.not_lt_zero _)
  | succ f ih =>
    intro pos acc hf hinv
    simp only [chunkLoop, emittedPositions]
    by_cases hp : pos < audio.length
    · rw [if_pos hp, if_pos hp]
      have hpush : minS ≤ ((audio.drop pos).take chunkS).length := by
        rw [List.length_take, List.length_drop]
        exact le_min hmc (hinv hp)
      rw [if_pos hpush]
      by_cases hbr : audio.length - (pos + step) < minS
      · rw [if_pos ⟨hbr, by simp⟩, if_pos hbr]
        simp
      · rw [if_neg (fun hc => hbr hc.1), if_neg hbr]
        rw [ih (pos + step) (acc ++ [(audio.drop pos).take chunkS]) (by omega)
          (fun _ => Nat.not_lt.mp hbr)]
        simp
    · rw [if_neg hp, if_neg hp]
      simp

/-- The emitted positions form the arithmetic progression
`pos, pos + step, pos + 2·step, …`. -/
theorem emittedPositions_arith (len minS step : ℕ) :
    ∀ fuel pos, ∃ K, emittedPositions len minS step fuel pos =
      (List.range K).map (fun j => pos + j * step) := by
  intro fuel
  induction fuel with
  | zero => intro pos; exact ⟨0, rfl⟩
  | succ f ih =>
    intro pos
    rw [emittedPositions]
    by_cases hp : pos < len
    · rw [if_pos hp]
      by_cases hbr : len - (pos + step) < minS
      · rw [if_pos hbr]
        exact ⟨1, by simp [List.range_succ]⟩
      · rw [if_neg hbr]
        obtain ⟨K, hK⟩ := ih (pos + step)
        refine ⟨K + 1, ?_⟩
        rw [hK, List.range_succ_eq_map, List.map_cons, List.map_map]
        refine congrArg₂ List.cons (by omega) (List.map_congr_left (fun j _ => ?_))
        simp [Function.comp, Nat.succ_mul]
        omega
    · rw [if_neg hp]
      exact ⟨0, rfl⟩

/-- Every emitted position lies inside the signal with at least `min_samples`
of signal ahead of it. -/
theorem emittedPositions_mem (len minS step : ℕ) :
    ∀ fuel pos, (pos < len → minS ≤ len - pos) →
      ∀ q ∈ emittedPositions len minS step fuel pos, q < len ∧ minS ≤ len - q := by
  intro fuel
  induction fuel with
  | zero => intro pos _ q hq; rw [emittedPositions] at hq; cases hq
  | succ f ih =>
    intro pos hinv q hq
    rw [emittedPositions] at hq
    by_cases hp : pos < len
    · rw [if_pos hp] at hq
      rcases List.mem_cons.mp hq with rfl | hq'
      · exact ⟨hp, hinv hp⟩
      · by_cases hbr : len - (pos + step) < minS
        · rw [if_pos hbr] at hq'
          cases hq'
        · rw [if_neg hbr] at hq'
          exact ih (pos + step) (fun _ => Nat.not_lt.mp hbr) q hq'
    · rw [if_neg hp] at hq
      cases hq

/-- When even a full window is below `min_samples`, nothing is ever pushed
and the loop returns the empty chunk list. -/
theorem chunkLoop_no_push (audio : List ℚ) (chunkS minS step : ℕ)
    (hstep : 0 < step) (hmc : chunkS < minS) :
    ∀ fuel pos, audio.length - pos < fuel →
      chunkLoop audio chunkS minS step fuel pos [] = some [] := by
  intro fuel
  induction fuel with
  | zero => intro pos hf; exact absurd hf (Nat.not_lt_zero _)
  | succ f ih =>
    intro pos hf
    simp only [chunkLoop]
    by_cases hp : pos < audio.length
    · rw [if_pos hp]
      have hnopush : ¬ minS ≤ ((audio.drop pos).take chunkS).length := by
        rw [List.length_take]
        exact Nat.not_le.mpr (lt_of_le_of_lt (min_le_left _ _) hmc)
      rw [if_neg hnopush, if_neg (fun hc => hc.2 rfl)]
      exact ih (pos + step) (by omega)
    · rw [if_neg hp]


/-- Claim C3 (amended) — for a signal longer than `chunk_samples`, under
`overlap_samples < chunk_samples` *and the additional hypothesis*
`overlap_samples ≤ min_samples` (which the claim lacks and the
counterexample shows is necessary), every emitted chunk except possibly the
last has length exactly `chunk_samples`, and for consecutive chunks the last
`overlap_samples` samples of chunk `i` coincide with the first
`overlap_samples` samples of chunk `i + 1`. -/
theorem chunk_with_overlap_structure (c : AudioProcessor) (audio : List ℚ)
    (hlen : c.chunkSamples < audio.length)
    (hov : c.overlapSamples < c.chunkSamples)
    (homin : c.overlapSamples ≤ c.minSamples) :
    ∀ i ch1 ch2, (c.chunk_with_overlap audio)[i]? = some ch1 →
      (c.chunk_with_overlap audio)[i + 1]? = some ch2 →
      ch1.length = c.chunkSamples ∧
      ch1.drop (ch1.length - c.overlapSamples) = ch2.take c.overlapSamples := by
  have hstep : 0 < c.chunkSamples - c.overlapSamples := Nat.sub_pos_of_lt hov
  have hcs0 : c.chunk_with_overlap audio =
      (chunkLoop audio c.chunkSamples c.minSamples
        (c.chunkSamples - c.overlapSamples) (audio.length + 1) 0 []).getD [] := by
    simp only [AudioProcessor.chunk_with_overlap]
    rw [if_neg (Nat.not_le.mpr hlen)]
  intro i ch1 ch2 h1 h2
  by_cases hmk : c.minSamples ≤ c.chunkSamples
  · have hclosed := chunkLoop_closed audio c.chunkSamples c.minSamples
      (c.chunkSamples - c.overlapSamples) hstep hmk (audio.length + 1) 0 []
      (by omega) (fun _ => by omega)
    obtain ⟨K, hK⟩ := emittedPositions_arith audio.length c.minSamples
      (c.chunkSamples - c.overlapSamples) (audio.length + 1) 0
    have hcs : c.chunk_with_overlap audio =
        ((List.range K).map (fun j => 0 + j * (c.chunkSamples - c.overlapSamples))).map
          (fun p => (audio.drop p).take c.chunkSamples) := by
      rw [hcs0, hclosed, hK]
      rfl
    rw [hcs, List.getElem?_map, List.getElem?_map] at h1 h2
    have hb : i + 1 < K := by
      by_contra hcon
      rw [List.getElem?_eq_none (by rw [List.length_range]; omega)] at h2
      simp at h2
    rw [List.getElem?_range hb] at h2
    rw [List.getElem?_range (Nat.lt_of_succ_lt hb)] at h1
    simp only [Option.map_some'] at h1 h2
    obtain rfl : ch1 = (audio.drop (0 + i * (c.chunkSamples - c.overlapSamples))).take
        c.chunkSamples := (Option.some.inj h1).symm
    obtain rfl : ch2 = (audio.drop (0 + (i + 1) * (c.chunkSamples - c.overlapSamples))).take
        c.chunkSamples := (Option.some.inj h2).symm
    have hmem := emittedPositions_mem audio.length c.minSamples
      (c.chunkSamples - c.overlapSamples) (audio.length + 1) 0 (fun _ => by omega)
      (0 + (i + 1) * (c.chunkSamples - c.overlapSamples))
      (by rw [hK]; exact List.mem_map_of_mem _ (List.mem_range.mpr hb))
    have hmul : (i + 1) * (c.chunkSamples - c.overlapSamples) =
        i * (c.chunkSamples - c.overlapSamples) + (c.chunkSamples - c.overlapSamples) := by
      ring
    have hlen_i : c.chunkSamples ≤ audio.length - i * (c.chunkSamples - c.overlapSamples) := by
      omega
    have hwin_len : ((audio.drop (0 + i * (c.chunkSamples - c.overlapSamples))).take
        c.chunkSamples).length = c.chunkSamples := by
      rw [List.length_take, List.length_drop]
      omega
    refine ⟨hwin_len, ?_⟩
    rw [hwin_len, List.drop_take, List.drop_drop, Nat.sub_sub_self (Nat.le_of_lt hov),
      List.take_take, Nat.min_eq_left (Nat.le_of_lt hov)]
    have harg : 0 + i * (c.chunkSamples - c.overlapSamples) +
        (c.chunkSamples - c.overlapSamples) =
        0 + (i + 1) * (c.chunkSamples - c.overlapSamples) := by
      omega
    rw [harg]
  · rw [hcs0, chunkLoop_no_push audio c.chunkSamples c.minSamples
      (c.chunkSamples - c.overlapSamples) hstep (Nat.not_le.mp hmk)
      (audio.length + 1) 0 (by omega)] at h1
    simp at h1

theorem cfgShort_chunkS : cfgShort.chunkSamples = 10 := by
  rw [AudioProcessor.chunkSamples]
  exact floorSamples _ _ (by norm_num [SAMPLE_RATE, cfgShort])

theorem cfgShort_overlapS : cfgShort.overlapSamples = 8 := by
  rw [AudioProcessor.overlapSamples]
  exact floorSamples _ _ (by norm_num [SAMPLE_RATE, cfgShort])

theorem cfgShort_minS : cfgShort.minSamples = 1 := by
  rw [AudioProcessor.minSamples]
  exact floorSamples _ _ (by norm_num [SAMPLE_RATE, cfgShort])

theorem cfgOv_chunkS : cfgOv.chunkSamples = 10 := by
  rw [AudioProcessor.chunkSamples]
  exact floorSamples _ _ (by norm_num [SAMPLE_RATE, cfgOv])

theorem cfgOv_overlapS : cfgOv.overlapSamples = 3 := by
  rw [AudioProcessor.overlapSamples]
  exact floorSamples _ _ (by norm_num [SAMPLE_RATE, cfgOv])

theorem cfgOv_minS : cfgOv.minSamples = 4 := by
  rw [AudioProcessor.minSamples]
  exact floorSamples _ _ (by norm_num [SAMPLE_RATE, cfgOv])

theorem cfgShort_chunks :
    cfgShort.chunk_with_overlap (rampQ 15) =
      [(rampQ 15).take 10, ((rampQ 15).drop 2).take 10, ((rampQ 15).drop 4).take 10,
       ((rampQ 15).drop 6).take 10, ((rampQ 15).drop 8).take 10,
       ((rampQ 15).drop 10).take 10, ((rampQ 15).drop 12).take 10,
       ((rampQ 15).drop 14).take 10] := by
  simp only [AudioProcessor.chunk_with_overlap, cfgShort_chunkS, cfgShort_overlapS,
    cfgShort_minS]
  rfl

theorem cfgOv_chunks :
    cfgOv.chunk_with_overlap (rampQ 20) =
      [(rampQ 20).take 10, ((rampQ 20).drop 7).take 10, ((rampQ 20).drop 14).take 10] := by
  simp only [AudioProcessor.chunk_with_overlap, cfgOv_chunkS, cfgOv_overlapS, cfgOv_minS]
  rfl

/-- Claim C3 (counterexample) — configuration `cfgShort` (10-sample chunks,
8-sample overlap, 1-sample minimum; all durations positive, overlap < chunk
duration) on the 15-sample ramp satisfies the claim's preconditions, yet the
fourth of its eight chunks — not the last — has 9 samples, not `chunk_samples`:
the claim fails whenever the minimum chunk length is below the overlap. -/
theorem chunking_nonlast_short_chunk :
    cfgShort.chunkSamples < (rampQ 15).length ∧
    cfgShort.overlapSamples < cfgShort.chunkSamples ∧
    ¬ ∀ i ch1 ch2, (cfgShort.chunk_with_overlap (rampQ 15))[i]? = some ch1 →
        (cfgShort.chunk_with_overlap (rampQ 15))[i + 1]? = some ch2 →
        ch1.length = cfgShort.chunkSamples := by
  refine ⟨?_, ?_, fun hall => ?_⟩
  · rw [cfgShort_chunkS, rampQ, List.length_map, List.length_range]
    norm_num
  · rw [cfgShort_chunkS, cfgShort_overlapS]
    norm_num
  · have h := hall 3 (((rampQ 15).drop 6).take 10) (((rampQ 15).drop 8).take 10)
      (by rw [cfgShort_chunks]; rfl) (by rw [cfgShort_chunks]; rfl)
    rw [cfgShort_chunkS] at h
    simp [List.length_take, List.length_drop, rampQ] at h

/-- Claim C3 (witness) — the amended claim at `cfgOv` (10-sample chunks,
3-sample overlap, 4-sample minimum) on the 20-sample ramp: the first chunk is
full-length and its last 3 samples equal the second chunk's first 3. -/
theorem chunk_with_overlap_structure_witness :
    ((rampQ 20).take 10).length = cfgOv.chunkSamples ∧
    ((rampQ 20).take 10).drop (((rampQ 20).take 10).length - cfgOv.overlapSamples) =
      (((rampQ 20).drop 7).take 10).take cfgOv.overlapSamples :=
  chunk_with_overlap_structure cfgOv (rampQ 20)
    (by rw [cfgOv_chunkS, rampQ, List.length_map, List.length_range]; norm_num)
    (by rw [cfgOv_chunkS, cfgOv_overlapS]; norm_num)
    (by rw [cfgOv_minS, cfgOv_overlapS]; norm_num)
    0 ((rampQ 20).take 10) (((rampQ 20).drop 7).take 10)
    (by rw [cfgOv_chunks]; rfl) (by rw [cfgOv_chunks]; rfl)

theorem byteLen_append (a b : Str) : byteLen (a ++ b) = byteLen a + byteLen b := by
  simp [byteLen]

/-- A successful byte slice `&s[i..]` returns a suffix of `s` whose dropped
prefix holds exactly `i` bytes. -/
theorem byteDrop_suffix :
    ∀ (s : Str) (i : ℕ) (t : Str), byteDrop s i = some t →
      ∃ pre, s = pre ++ t ∧ byteLen pre = i := by
  intro s
  induction s with
  | nil =>
    intro i t h
    match i with
    | 0 => exact ⟨[], by simpa [byteDrop] using (Option.some.inj h).symm, rfl⟩
    | _ + 1 => simp [byteDrop] at h
  | cons c rest ih =>
    intro i t h
    match i with
    | 0 =>
      exact ⟨[], by simpa [byteDrop] using Option.some.inj h, rfl⟩
    | j + 1 =>
      rw [byteDrop] at h
      by_cases hsz : c.utf8Size ≤ j + 1
      · rw [if_pos hsz] at h
        obtain ⟨pre, hpre, hlen⟩ := ih (j + 1 - c.utf8Size) t h
        refine ⟨c :: pre, by rw [List.cons_append, hpre], ?_⟩
        have : byteLen (c :: pre) = c.utf8Size + byteLen pre := by
          simp [byteLen]
        omega
      · rw [if_neg hsz] at h
        cases h

theorem length_le_byteLen (s : Str) : s.length ≤ byteLen s := by
  induction s with
  | nil => exact Nat.le_refl 0
  | cons c rest ih =>
    have hc := Char.utf8Size_pos c
    have : byteLen (c :: rest) = c.utf8Size + byteLen rest := by
      simp [byteLen]
    rw [this, List.length_cons]
    omega

theorem trimWs_length_le (s : Str) : (trimWs s).length ≤ s.length := by
  rw [trimWs]
  calc ((s.dropWhile Char.isWhitespace).reverse.dropWhile Char.isWhitespace).reverse.length
      = ((s.dropWhile Char.isWhitespace).reverse.dropWhile Char.isWhitespace).length := by
        rw [List.length_reverse]
    _ ≤ (s.dropWhile Char.isWhitespace).reverse.length :=
        (List.dropWhile_sublist _).length_le
    _ = (s.dropWhile Char.isWhitespace).length := by rw [List.length_reverse]
    _ ≤ s.length := (List.dropWhile_sublist _).length_le

/-- Claim C5 (amended) — the profile prompt built by `run_calibration` is never
longer than 300 *characters* (that part of the claim holds): when the
collected text exceeds 300 *bytes* (not characters) the prompt is exactly its
trailing 300 bytes (a byte slice that panics off a character boundary);
otherwise it is the collected text with surrounding whitespace *trimmed*, not
the collected text verbatim. -/
theorem profile_prompt_bounded (collected_text : Str) (p : Str)
    (h : buildProfilePrompt collected_text = some p) :
    p.length ≤ 300 ∧
    (byteLen collected_text ≤ 300 → p = trimWs collected_text) ∧
    (300 < byteLen collected_text →
      byteLen p = 300 ∧ ∃ pre, collected_text = pre ++ p) := by
  rw [buildProfilePrompt] at h
  by_cases hb : 300 < byteLen collected_text
  · rw [if_pos hb] at h
    obtain ⟨pre, hpre, hlenpre⟩ := byteDrop_suffix _ _ _ h
    have hsplit : byteLen collected_text = byteLen pre + byteLen p := by
      rw [hpre, byteLen_append]
    have hbl : byteLen p = 300 := by omega
    refine ⟨le_trans (length_le_byteLen p) (by omega),
      fun hle => ((Nat.not_le.mpr hb) hle).elim,
      fun _ => ⟨hbl, pre, hpre⟩⟩
  · rw [if_neg hb] at h
    obtain rfl : p = trimWs collected_text := (Option.some.inj h).symm
    have h1 : (trimWs collected_text).length ≤ collected_text.length :=
      trimWs_length_le collected_text
    have h2 : collected_text.length ≤ byteLen collected_text :=
      length_le_byteLen collected_text
    exact ⟨by omega, fun _ => rfl, fun hgt => (hb hgt).elim⟩

/-- Claim C5 (witness) — the amended claim at the one-character collected text
`"a"`: the prompt is the trimmed text and its length is within 300. -/
theorem profile_prompt_bounded_witness :
    (['a'] : Str).length ≤ 300 ∧
    (byteLen ['a'] ≤ 300 → (['a'] : Str) = trimWs ['a']) ∧
    (300 < byteLen ['a'] → byteLen (['a'] : Str) = 300 ∧
      ∃ pre, (['a'] : Str) = pre ++ ['a']) :=
  profile_prompt_bounded ['a'] ['a'] rfl

set_option maxRecDepth 4000 in
/-- Claim C5 (counterexample) — two failures of the claim as stated: the
collected text `" a"` (within 300 characters) yields the *trimmed* prompt
`"a"`, not the collected text; and 151 Cyrillic characters (302 UTF-8 bytes,
well under 300 characters, so by the claim the prompt should hold the
collected text) are truncated by the *byte*-based check to 150 characters. -/
theorem profile_prompt_counterexample :
    (buildProfilePrompt (' ' :: ['a']) = some ['a'] ∧ (['a'] : Str) ≠ ' ' :: ['a']) ∧
    (buildProfilePrompt (List.replicate 151 'б') = some (List.replicate 150 'б') ∧
      (List.replicate 151 'б').length ≤ 300 ∧
      List.replicate 150 'б' ≠ List.replicate 151 'б') := by
  refine ⟨⟨rfl, by decide⟩, ⟨?_, by decide, by decide⟩⟩
  rfl

/-- Loop invariant of `transcribe_chunks`: when the accumulated text is the
concatenation of the already-recorded per-chunk texts and every recorded
call's prompt was built (by `buildPrompt`) from the texts accumulated before
it, the same holds of every call recorded by the remainder of the loop. -/
theorem chunksLoop_calls_good {ε : Type} (eng : Engine ε) (cal : Option Str) :
    ∀ (rest : List (List ℚ)) (full_text : Str) (calls0 : List (Option Str × Str)),
      full_text = List.flatten (calls0.map Prod.snd) →
      (∀ k entry, calls0[k]? = some entry →
        ∃ p, buildPrompt cal (List.flatten ((calls0.take k).map Prod.snd)) = some p ∧
          entry.1 = if p = [] then none else some p) →
      ∀ k entry, ((chunksLoop eng cal rest full_text calls0).calls)[k]? = some entry →
        ∃ p, buildPrompt cal
            (List.flatten ((((chunksLoop eng cal rest full_text calls0).calls).take k).map
              Prod.snd)) = some p ∧
          entry.1 = if p = [] then none else some p := by
  intro rest
  induction rest with
  | nil =>
    intro full_text calls0 _ hgood k entry h
    exact hgood k entry h
  | cons chunk rest ih =>
    intro full_text calls0 hfull hgood k entry h
    cases hbp : buildPrompt cal full_text with
    | none =>
      have hstop : chunksLoop eng cal (chunk :: rest) full_text calls0 = .sliceFault calls0 := by
        simp only [chunksLoop, hbp]
      rw [hstop] at h ⊢
      exact hgood k entry h
    | some prompt =>
      cases heng : eng (if prompt = [] then none else some prompt) chunk with
      | error e =>
        have hstop : chunksLoop eng cal (chunk :: rest) full_text calls0 = .failed calls0 e := by
          simp only [chunksLoop, hbp, heng]
        rw [hstop] at h ⊢
        exact hgood k entry h
      | ok text =>
        have hrec : chunksLoop eng cal (chunk :: rest) full_text calls0 =
            chunksLoop eng cal rest (full_text ++ text)
              (calls0 ++ [(if prompt = [] then none else some prompt, text)]) := by
          simp only [chunksLoop, hbp, heng]
        rw [hrec] at h ⊢
        refine ih (full_text ++ text)
          (calls0 ++ [(if prompt = [] then none else some prompt, text)]) ?_ ?_ k entry h
        · rw [hfull]
          simp
        · intro k' entry' h'
          rcases Nat.lt_or_ge k' calls0.length with hlt | hge
          · rw [List.getElem?_append_left hlt] at h'
            obtain ⟨p, hp1, hp2⟩ := hgood k' entry' h'
            refine ⟨p, ?_, hp2⟩
            rw [List.take_append_of_le_length (Nat.le_of_lt hlt)]
            exact hp1
          · have hlen : k' < calls0.length + 1 := by
              by_contra hcon
              rw [List.getElem?_eq_none (by simp; omega)] at h'
              cases h'
            have hk' : k' = calls0.length := by omega
            subst hk'
            rw [List.getElem?_append_right (le_refl _)] at h'
            simp only [Nat.sub_self, List.getElem?_cons_zero] at h'
            refine ⟨prompt, ?_, by rw [← Option.some.inj h']⟩
            rw [List.take_left, ← hfull]
            exact hbp

/-- Claim C4 (amended) — on `N > 1` chunks, `transcribe_chunks` runs the
context-carrying loop, and the priming prompt passed to the engine for every
chunk `k > 1` is `buildPrompt` applied to the concatenation of the texts of
chunks `1..k-1`: the calibration prompt (when set) joined by a single space
with the trailing at-most-100 *bytes* (not characters) of that accumulated
text — truncated at a UTF-8 byte offset, and passed only when non-empty. -/
theorem transcribe_chunks_prompts {ε : Type} (eng : Engine ε) (cal : Option Str)
    (chunks : List (List ℚ)) (hN : 2 ≤ chunks.length) :
    WhisperModel.transcribe_chunks eng cal chunks =
      (chunksLoop eng cal chunks [] []).toResult ∧
    ∀ k entry, 0 < k → ((chunksLoop eng cal chunks [] []).calls)[k]? = some entry →
      ∃ p, buildPrompt cal
          (List.flatten ((((chunksLoop eng cal chunks [] []).calls).take k).map Prod.snd)) =
            some p ∧
        entry.1 = if p = [] then none else some p := by
  constructor
  · rcases chunks with _ | ⟨c1, _ | ⟨c2, rest⟩⟩
    · simp at hN
    · simp at hN
    · rfl
  · intro k entry _ h
    exact chunksLoop_calls_good eng cal chunks [] [] rfl
      (fun k' e' h' => by simp at h') k entry h

set_option maxRecDepth 4000 in
/-- Claim C4 (counterexample) — engine `engCyr` transcribes every chunk to 51
Cyrillic characters (102 UTF-8 bytes).  On two chunks with no calibration
prompt, the prompt passed for the second chunk is the trailing 100 *bytes* of
the accumulated text — 50 characters — whereas the claim's trailing
at-most-100 *characters* of a 51-character text is the whole text: the two
differ, so the priming prompt is not built from characters. -/
theorem transcribe_prompt_bytes_not_chars :
    ((chunksLoop engCyr none [[0], [0]] [] []).calls).map Prod.fst =
      [none, some (List.replicate 50 'б')] ∧
    specTrailingChars 100 (List.replicate 51 'б') = List.replicate 51 'б' ∧
    some (List.replicate 50 'б') ≠
      some (specTrailingChars 100 (List.replicate 51 'б')) := by
  refine ⟨rfl, rfl, ?_⟩
  intro h
  have := Option.some.inj h
  rw [specTrailingChars] at this
  simp at this

/-- Claim C4 (witness) — the amended claim evaluated with `engCyr` on two
chunks: the second call's prompt is `buildPrompt` of the first chunk's text
(here the trailing 100 bytes, i.e. 50 of the 51 characters). -/
theorem transcribe_chunks_prompts_witness :
    ∃ p, buildPrompt none
        (List.flatten ((((chunksLoop engCyr none [[0], [0]] [] []).calls).take 1).map
          Prod.snd)) = some p ∧
      ((some (List.replicate 50 'б') : Option Str), List.replicate 51 'б').1 =
        if p = [] then none else some p :=
  (transcribe_chunks_prompts engCyr none [[0], [0]] (by decide)).2 1
    (some (List.replicate 50 'б'), List.replicate 51 'б') (by decide) (by rfl)

/-- A finished run made one engine call per chunk, and (when the accumulated
text entering the loop matches the recorded texts) the final text is the
concatenation of all per-chunk texts in order. -/
theorem chunksLoop_finished {ε : Type} (eng : Engine ε) (cal : Option Str) :
    ∀ (rest : List (List ℚ)) (full_text : Str) (calls0 : List (Option Str × Str))
      (calls : List (Option Str × Str)) (t : Str),
      chunksLoop eng cal rest full_text calls0 = .finished calls t →
      calls.length = calls0.length + rest.length ∧
      (full_text = List.flatten (calls0.map Prod.snd) →
        t = List.flatten (calls.map Prod.snd)) := by
  intro rest
  induction rest with
  | nil =>
    intro full_text calls0 calls t h
    rw [chunksLoop] at h
    cases h
    exact ⟨rfl, fun hfull => hfull⟩
  | cons chunk rest ih =>
    intro full_text calls0 calls t h
    cases hbp : buildPrompt cal full_text with
    | none =>
      rw [show chunksLoop eng cal (chunk :: rest) full_text calls0 = .sliceFault calls0 by
        simp only [chunksLoop, hbp]] at h
      cases h
    | some prompt =>
      cases heng : eng (if prompt = [] then none else some prompt) chunk with
      | error e =>
        rw [show chunksLoop eng cal (chunk :: rest) full_text calls0 = .failed calls0 e by
          simp only [chunksLoop, hbp, heng]] at h
        cases h
      | ok text =>
        rw [show chunksLoop eng cal (chunk :: rest) full_text calls0 =
            chunksLoop eng cal rest (full_text ++ text)
              (calls0 ++ [(if prompt = [] then none else some prompt, text)]) by
          simp only [chunksLoop, hbp, heng]] at h
        obtain ⟨hlen, htext⟩ := ih (full_text ++ text)
          (calls0 ++ [(if prompt = [] then none else some prompt, text)]) calls t h
        constructor
        · rw [hlen]
          simp
          omega
        · intro hfull
          refine htext ?_
          rw [hfull]
          simp

/-- Claim C7 — an engine failure on any chunk aborts the whole run: the result
is the propagated engine error and no text is returned; the single-chunk path
propagates the error the same way; and a successful multi-chunk result can
only arise from a run in which every one of the `N` engine calls succeeded,
its text being the concatenation of all per-chunk texts — never a partial
prefix. -/
theorem transcribe_chunks_error_aborts {ε : Type} (eng : Engine ε) (cal : Option Str)
    (chunks : List (List ℚ)) :
    (∀ calls e, 2 ≤ chunks.length → chunksLoop eng cal chunks [] [] = .failed calls e →
      WhisperModel.transcribe_chunks eng cal chunks = some (.error e)) ∧
    (∀ c e, chunks = [c] → eng cal c = .error e →
      WhisperModel.transcribe_chunks eng cal chunks = some (.error e)) ∧
    (∀ t, 2 ≤ chunks.length → WhisperModel.transcribe_chunks eng cal chunks = some (.ok t) →
      ∃ calls, chunksLoop eng cal chunks [] [] = .finished calls t ∧
        calls.length = chunks.length ∧ t = List.flatten (calls.map Prod.snd)) := by
  refine ⟨?_, ?_, ?_⟩
  · intro calls e hN hfail
    rcases chunks with _ | ⟨c1, _ | ⟨c2, rest⟩⟩
    · simp at hN
    · simp at hN
    · show (chunksLoop eng cal (c1 :: c2 :: rest) [] []).toResult = some (.error e)
      rw [hfail]
      rfl
  · intro c e hc heng
    subst hc
    show some (WhisperModel.transcribe eng cal c) = some (Except.error e)
    rw [WhisperModel.transcribe, heng]
  · intro t hN hok
    rcases chunks with _ | ⟨c1, _ | ⟨c2, rest⟩⟩
    · simp at hN
    · simp at hN
    · have hres : (chunksLoop eng cal (c1 :: c2 :: rest) [] []).toResult = some (.ok t) := hok
      have hfin : ∃ calls, chunksLoop eng cal (c1 :: c2 :: rest) [] [] = .finished calls t := by
        cases htr : chunksLoop eng cal (c1 :: c2 :: rest) [] [] with
        | sliceFault calls => rw [htr] at hres; cases hres
        | failed calls e => rw [htr] at hres; cases hres
        | finished calls t2 =>
          rw [htr] at hres
          have ht : t2 = t := Except.ok.inj (Option.some.inj hres)
          exact ⟨calls, by rw [ht]⟩
      obtain ⟨calls, htr⟩ := hfin
      obtain ⟨hlen, htext⟩ := chunksLoop_finished eng cal (c1 :: c2 :: rest) [] [] calls t htr
      exact ⟨calls, htr, by simpa using hlen, htext rfl⟩

/-- Claim C7 (witness) — `engFail` fails (error 7) on the second of two chunks
after succeeding on the first: `transcribe_chunks` returns the propagated
error and the first chunk's text is discarded. -/
theorem transcribe_chunks_error_aborts_witness :
    WhisperModel.transcribe_chunks engFail none [[1], [2]] = some (.error 7) :=
  (transcribe_chunks_error_aborts engFail none [[1], [2]]).1 [(none, ['x'])] 7
    (by decide) rfl
